import Mathlib

/-!
Verification of the Quantum-Portfolio-Optimizer optimization and experiment
engine.  The Python source (backend/app) is shallowly embedded: machine
floats are modelled by rationals, numpy arrays by lists, dicts by
association lists or structures, and raised exceptions by `Except`.
Each section names the source file and function it embeds.
-/

namespace QPO

/-- Tolerance 1e-6 used throughout `classical_optimizer.py`. -/
def tol : ℚ := 1 / 1000000

/-! ## math_utils.normalize_weights -/

/-- Embeds `math_utils.normalize_weights`: divide by the total when it is
positive, otherwise return an all-zero vector of the same length
(`np.zeros_like`). -/
def normalize_weights (w : List ℚ) : List ℚ :=
  let total := w.sum
  if 0 < total then w.map (fun x => x / total) else w.map (fun _ => 0)

/-! ## qubo_generator: weight levels and decoding -/

/-- Entry `j` of `np.linspace(0, maxW, d+1)`: exact value `maxW * j / d`. -/
def weightLevel (maxW : ℚ) (d : Nat) (j : Nat) : ℚ := maxW * j / d

/-- Embeds `QUBOGenerator._decode_to_weights` inner loop for one asset:
the first level index `j ∈ [0, d]` whose binary variable equals 1. -/
def firstSelectedLevel (σ : Nat → Nat → Nat) (d : Nat) (i : Nat) : Option Nat :=
  (List.range (d + 1)).find? (fun j => σ i j == 1)

/-- Weight assigned to asset `i` before normalization: the level value of the
first selected level, defaulting to 0 when no level variable equals 1. -/
def rawDecodedWeight (σ : Nat → Nat → Nat) (maxW : ℚ) (d : Nat) (i : Nat) : ℚ :=
  match firstSelectedLevel σ d i with
  | some j => weightLevel maxW d j
  | none => 0

/-- The pre-normalization decoded weight vector of `_decode_to_weights`. -/
def rawDecodedList (σ : Nat → Nat → Nat) (n : Nat) (maxW : ℚ) (d : Nat) : List ℚ :=
  (List.range n).map (rawDecodedWeight σ maxW d)

/-- Embeds `QUBOGenerator._decode_to_weights`: per-asset first-selected-level
decode followed by `normalize_weights`. -/
def decode_to_weights (σ : Nat → Nat → Nat) (n : Nat) (d : Nat) (maxW : ℚ) : List ℚ :=
  normalize_weights (rawDecodedList σ n maxW d)

/-- The one-hot assignment that sets `x_{i,j}` to 1 exactly when `j = js i`. -/
def oneHot (js : Nat → Nat) : Nat → Nat → Nat :=
  fun i j => if j = js i then 1 else 0

/-! ## qaoa_solver._qubo_to_ising -/

/-- A QUBO coefficient map as produced by `model.to_qubo()`: a sparse list of
`((i, j), c)` entries. -/
abbrev Qubo : Type := List ((Nat × Nat) × ℚ)

/-- QUBO energy of a (binary valued) assignment `x`. -/
def quboEnergy (q : Qubo) (x : Nat → ℚ) : ℚ :=
  (q.map (fun t => t.2 * x t.1.1 * x t.1.2)).sum

/-- Embeds `QAOASolver._qubo_to_ising` evaluated at a spin assignment `z`
(each `Z_i` eigenvalue substituted by `z i`): diagonal entries contribute
`c/2 * z i`, off-diagonal entries `c/4 * z i * z j`, plus the constant
`(sum of all coefficients) / 4`. -/
def isingValue (q : Qubo) (z : Nat → ℚ) : ℚ :=
  (q.map (fun t =>
    if t.1.1 = t.1.2 then t.2 / 2 * z t.1.1 else t.2 / 4 * z t.1.1 * z t.1.2)).sum
  + (q.map (fun t => t.2)).sum / 4

/-! ## classical_optimizer -/

/-- The constraint values `ClassicalOptimizer` reads out of its `constraints`
dict, with the source's `.get` defaults. -/
structure Constraints where
  budget : ℚ := 1
  max_weight_per_asset : ℚ := 1
  max_assets : Option Nat := none
  allow_short_selling : Bool := false
  risk_aversion : ℚ := 1
deriving DecidableEq

/-- Embeds `ClassicalOptimizer._check_constraints`: the keyed boolean map,
each check with tolerance 1e-6.  The `cardinality` key is present only when
`max_assets` is Python-truthy (set and nonzero), the `non_negative` key only
when short selling is disallowed. -/
def check_constraints (w : List ℚ) (c : Constraints) : List (String × Bool) :=
  [("budget", decide (|w.sum - c.budget| < tol)),
   ("max_weight", w.all (fun x => decide (x ≤ c.max_weight_per_asset + tol)))]
  ++ (match c.max_assets with
      | some ma => if ma ≠ 0 then
          [("cardinality", decide ((w.filter (fun x => decide (tol < x))).length ≤ ma))]
        else []
      | none => [])
  ++ (if c.allow_short_selling then []
      else [("non_negative", w.all (fun x => decide (-tol ≤ x)))])

/-- The observable part of a solver result dict. -/
structure SolveResult where
  status : String
  weights : Option (List ℚ)
  constraint_satisfaction : List (String × Bool)
deriving DecidableEq

/-- Embeds the post-solve path of `ClassicalOptimizer.solve`: given the
status reported by the convex backend and the raw weight array it returned,
the source normalizes the weights with `normalize_weights`, recomputes the
constraint-satisfaction map at the normalized weights and reports
`optimal`; for `infeasible`/`unbounded` it reports `failed`. -/
def solve_post (backendStatus : String) (raw : List ℚ) (c : Constraints) : SolveResult :=
  if backendStatus = "infeasible" ∨ backendStatus = "unbounded" then
    { status := "failed", weights := none, constraint_satisfaction := [] }
  else
    let w := normalize_weights raw
    { status := "optimal", weights := some w,
      constraint_satisfaction := check_constraints w c }

/-! ## experiment_tracker: reproducibility hash -/

/-- JSON-serializable values occurring in `constraints` / `solver_params`. -/
inductive JValue where
  | num (q : ℚ)
  | str (s : String)
  | boolean (b : Bool)
  | null
deriving DecidableEq

/-- Key ordering used by `json.dumps(..., sort_keys=True)`. -/
def keyLE (a b : String × JValue) : Prop := a.1 ≤ b.1

instance : DecidableRel keyLE := fun a b => inferInstanceAs (Decidable (a.1 ≤ b.1))

instance : IsTotal (String × JValue) keyLE := ⟨fun a b => le_total a.1 b.1⟩

instance : IsTrans (String × JValue) keyLE := ⟨fun _ _ _ h h2 => le_trans h h2⟩

/-- Canonical key-sorted form of a JSON object, as produced by
`json.dumps(..., sort_keys=True)`. -/
def sortKV (l : List (String × JValue)) : List (String × JValue) :=
  List.insertionSort keyLE l

/-- The reproducibility hash computed in `ExperimentTracker.create_experiment`.
The source computes `md5(json.dumps(hash_data, sort_keys=True))`; canonical
JSON serialization is injective on this data and the digest of two strings is
equal exactly when the strings are, with md5 treated as collision-free, so the
hash is modelled by the canonically sorted hash data itself. -/
structure HashCanon where
  dataset_id : Nat
  solver_type : String
  constraints : List (String × JValue)
  solver_params : List (String × JValue)
  random_seed : Option Int
deriving DecidableEq

/-- The `results_hash` value of `create_experiment`: note it covers exactly
`(dataset_id, solver_type, constraints, solver_params, random_seed)` —
neither `experiment_name` nor `user_id` enter it. -/
def results_hash_model (dataset_id : Nat) (solver_type : String)
    (constraints solver_params : List (String × JValue))
    (random_seed : Option Int) : HashCanon :=
  { dataset_id := dataset_id, solver_type := solver_type,
    constraints := sortKV constraints, solver_params := sortKV solver_params,
    random_seed := random_seed }

/-! ## experiment_tracker: state machine and persistence -/

/-- The fields of a row of the `experiments` table that the tracker reads or
mutates. -/
structure ExperimentRec where
  id : Nat
  name : Option String := none
  user_id : Nat
  dataset_id : Nat
  solver_type : String
  random_seed : Option Int := none
  results_hash : HashCanon
  status : String := "pending"
  error_message : Option String := none
deriving DecidableEq

/-- A row of the `results` table (only the foreign key matters here; the
schema places no uniqueness constraint on `experiment_id`). -/
structure ResultRec where
  experiment_id : Nat
deriving DecidableEq

/-- The persistence state the tracker mutates. -/
structure DB where
  experiments : List ExperimentRec := []
  results : List ResultRec := []
deriving DecidableEq

/-- Fresh autoincrement id for a new experiment row. -/
def newId (db : DB) : Nat := db.experiments.length + 1

/-- Embeds `ExperimentTracker.create_experiment`: computes the reproducibility
hash over the five hash fields and persists a `pending` experiment. -/
def create_experiment (db : DB) (user_id dataset_id : Nat) (solver_type : String)
    (constraints solver_params : List (String × JValue))
    (experiment_name : Option String) (random_seed : Option Int) : DB :=
  { db with experiments := db.experiments ++
      [{ id := newId db, name := experiment_name, user_id := user_id,
         dataset_id := dataset_id, solver_type := solver_type,
         random_seed := random_seed,
         results_hash :=
           results_hash_model dataset_id solver_type constraints solver_params random_seed,
         status := "pending" }] }

/-- Embeds `ExperimentTracker.start_experiment`: if the experiment exists its
status is set to `running` unconditionally (there is no guard on the current
state); a missing id is a silent no-op. -/
def start_experiment (db : DB) (id : Nat) : DB :=
  { db with experiments := db.experiments.map (fun e =>
      if e.id = id then { e with status := "running" } else e) }

/-- Embeds `ExperimentTracker.complete_experiment`: sets the status to
`completed`/`failed` by the presence of an error message and, when there is no
error and the results payload is truthy, unconditionally inserts a new
`Result` row.  A missing experiment raises `ValueError` after a rollback, so
the database is returned unchanged in that case. -/
def complete_experiment (db : DB) (id : Nat) (hasResults : Bool)
    (error_message : Option String) : DB :=
  if db.experiments.any (fun e => e.id == id) then
    { experiments := db.experiments.map (fun e =>
        if e.id = id then
          { e with status := if error_message.isSome then "failed" else "completed",
                   error_message := error_message }
        else e),
      results := if error_message.isNone ∧ hasResults then
          db.results ++ [{ experiment_id := id }]
        else db.results }
  else db

/-- Embeds `ExperimentTracker.check_reproducibility`: the first experiment
whose hash matches and whose status is `completed`; no user filter. -/
def check_reproducibility (db : DB) (h : HashCanon) : Option ExperimentRec :=
  db.experiments.find? (fun e => decide (e.results_hash = h) && e.status == "completed")

/-- Status of an experiment id in the database, if present. -/
def currentStatus (db : DB) (id : Nat) : Option String :=
  (db.experiments.find? (fun e => e.id == id)).map (fun e => e.status)

/-- Number of `Result` rows attached to an experiment id. -/
def resultCount (db : DB) (id : Nat) : Nat :=
  (db.results.filter (fun r => r.experiment_id == id)).length

/-- Position of a lifecycle state along `pending → running → terminal`. -/
def statusRank (s : String) : Nat :=
  if s = "pending" then 0
  else if s = "running" then 1
  else if s = "completed" then 2
  else if s = "failed" then 2
  else 0

/-- Rank of an optional status (a missing experiment counts as rank 0). -/
def rankO : Option String → Nat
  | none => 0
  | some s => statusRank s

/-! ## Solver adapter boundaries (qubo_generator.solve_qubo, qaoa_solver.solve_qaoa) -/

/-- The observable part of an adapter result dict. -/
structure AdapterResult where
  status : String
  error : Option String := none
  weights : Option (List ℚ) := none
deriving DecidableEq

/-- Embeds the control flow of `QUBOGenerator.solve_qubo`: the whole body —
including the `neal` import — runs inside `try`, and any exception `e` from
the internal computation (modelled by `inner`) is converted to a returned
`status=error` dict; the call itself never raises. -/
def solve_qubo_model (inner : Except String AdapterResult) : Except String AdapterResult :=
  Except.ok (match inner with
    | Except.ok r => r
    | Except.error e => { status := "error", error := some e, weights := none })

/-- Embeds the control flow of `QAOASolver.solve_qaoa`: when Qiskit is
unavailable an `ImportError` is raised *before* the `try` block, escaping the
call; otherwise every internal failure is converted to a `status=error`
dict. -/
def solve_qaoa_model (qiskit_available : Bool)
    (inner : Except String AdapterResult) : Except String AdapterResult :=
  if qiskit_available then
    Except.ok (match inner with
      | Except.ok r => r
      | Except.error e => { status := "error", error := some e, weights := none })
  else
    Except.error "Qiskit is not available. Please install it with: pip install qiskit qiskit-aer"

/-! ## math_utils.calculate_returns -/

/-- One price observation row: (ticker, date, adj_close). -/
structure PriceObs where
  ticker : String
  date : Nat
  adj_close : ℚ
deriving DecidableEq

/-- Sorted deduplicated date index produced by the pivot. -/
def pivotDates (obs : List PriceObs) : List Nat :=
  List.insertionSort (· ≤ ·) (obs.map (fun o => o.date)).dedup

/-- Sorted deduplicated ticker columns produced by the pivot. -/
def pivotTickers (obs : List PriceObs) : List String :=
  List.insertionSort (· ≤ ·) (obs.map (fun o => o.ticker)).dedup

/-- Price of a ticker at a date, if observed (a missing cell is `NaN` in the
pivoted frame). -/
def priceAt (obs : List PriceObs) (t : String) (d : Nat) : Option ℚ :=
  (obs.find? (fun o => o.ticker == t && o.date == d)).map (fun o => o.adj_close)

/-- Embeds `math_utils.calculate_returns`.  `pivot` raises (a pandas
`ValueError`) exactly when some (ticker, date) pair is duplicated; otherwise
`np.log(pm / pm.shift(1)).dropna()` keeps, for each adjacent pair of dates in
the index, the row of ratios `p_t / p_{t-1}` precisely when every ticker has a
price at both dates (any `NaN` drops the whole row, and the first row is
always `NaN` through `shift`).  Cells carry the ratio `p_t / p_{t-1}`, the
argument of the (strictly monotone) `log`; no claim here compares the
logarithm's value itself. -/
def calculate_returns (obs : List PriceObs) : Except String (List (List ℚ)) :=
  if (obs.map (fun o => (o.ticker, o.date))).Nodup then
    let ds := pivotDates obs
    let ts := pivotTickers obs
    Except.ok ((ds.zip ds.tail).filterMap (fun p =>
      if ts.all (fun t => (priceAt obs t p.1).isSome && (priceAt obs t p.2).isSome) then
        some (ts.map (fun t => (priceAt obs t p.2).getD 1 / (priceAt obs t p.1).getD 1))
      else none))
  else Except.error "Index contains duplicate entries, cannot reshape"

/-! ## math_utils.calculate_cvar -/

/-- Dot product of a returns row with the weight vector. -/
def dot (r w : List ℚ) : ℚ := (List.zipWith (fun a b => a * b) r w).sum

/-- `np.dot(returns, weights)`: the portfolio return series. -/
def portfolio_returns (returns : List (List ℚ)) (w : List ℚ) : List ℚ :=
  returns.map (fun row => dot row w)

/-- Ascending sort used inside `np.percentile`. -/
def sortQ (l : List ℚ) : List ℚ := List.insertionSort (· ≤ ·) l

/-- Arithmetic mean of a list (`np.mean`). -/
def listMean (l : List ℚ) : ℚ := l.sum / (l.length : ℚ)

/-- Embeds `np.percentile(a, q)` with the default linear interpolation:
with `s` the ascending sort of `a` and `h = q/100 * (len−1)`, the result is
`s[⌊h⌋] + (h − ⌊h⌋) * (s[⌊h⌋+1] − s[⌊h⌋])` (upper index clamped to the last
position).  `np.percentile` raises on an empty array; the caller's exception
handler turns that into `0.0`. -/
def percentile (l : List ℚ) (q : ℚ) : ℚ :=
  if l = [] then 0
  else
    let s := sortQ l
    let m := s.length
    let h : ℚ := q / 100 * ((m : ℚ) - 1)
    let lo : Nat := (⌊h⌋).toNat
    let a := s.getD lo 0
    let b := s.getD (min (lo + 1) (m - 1)) 0
    a + (h - (lo : ℚ)) * (b - a)

/-- Embeds `math_utils.calculate_cvar`: VaR is the `(1−c)`-percentile of the
portfolio return series and CVaR the mean of the returns not exceeding it.
On an empty series the internal exception handler returns `0.0`. -/
def calculate_cvar (returns : List (List ℚ)) (w : List ℚ) (c : ℚ) : ℚ :=
  let pr := portfolio_returns returns w
  if pr = [] then 0
  else
    let v := percentile pr ((1 - c) * 100)
    listMean (pr.filter (fun x => decide (x ≤ v)))

/-! ## Concrete fixtures used by individual claims -/

/-- Reproducibility hash stored in the most recently created experiment. -/
def storedHash (db : DB) : Option HashCanon :=
  db.experiments.getLast?.map (fun e => e.results_hash)

/-- Constraint set with a non-unit budget, used to exhibit the
normalization-to-1 behaviour of `ClassicalOptimizer.solve`. -/
def cexConstraints : Constraints := { budget := 1/2, max_weight_per_asset := 3/5 }

/-- Hash of a demonstration experiment for the reproducibility lookup. -/
def repro_demo_hash : HashCanon := results_hash_model 3 "classical" [] [] (some 42)

/-- A completed experiment owned by user 7. -/
def repro_demo_exp : ExperimentRec :=
  { id := 1, user_id := 7, dataset_id := 3, solver_type := "classical",
    results_hash := repro_demo_hash, status := "completed" }

/-- A database holding only user 7's completed experiment. -/
def repro_demo_db : DB := { experiments := [repro_demo_exp], results := [] }

/-! ## Helper lemmas -/

/-- Finding an experiment id in a list whose matching entries were rewritten
by an id-preserving update. -/
theorem find?_update (l : List ExperimentRec) (id : Nat)
    (g : ExperimentRec → ExperimentRec) (hg : ∀ e, (g e).id = e.id) :
    (l.map (fun e => if e.id = id then g e else e)).find? (fun e => e.id == id)
      = (l.find? (fun e => e.id == id)).map (fun e => if e.id = id then g e else e) := by
  have hpred : ((fun e : ExperimentRec => e.id == id) ∘ fun e => if e.id = id then g e else e)
      = (fun e => e.id == id) := by
    funext e
    by_cases h : e.id = id <;> simp [Function.comp, h, hg]
  rw [List.find?_map, hpred]

/-- Sum of an elementwise division. -/
theorem sum_map_div (l : List ℚ) (s : ℚ) : (l.map (fun x => x / s)).sum = l.sum / s := by
  induction l with
  | nil => simp
  | cons a t ih => simp [ih, add_div]

/-- When the total is positive, `normalize_weights` rescales to total 1. -/
theorem normalize_weights_sum (w : List ℚ) (h : 0 < w.sum) :
    (normalize_weights w).sum = 1 := by
  simp only [normalize_weights, if_pos h, sum_map_div]
  exact div_self (ne_of_gt h)

/-- `find?` over an initial range returns the least index satisfying `p`. -/
theorem find?_range_eq_some (p : Nat → Bool) (m j : Nat) (hj : j < m)
    (hp : p j = true) (hmin : ∀ k, k < j → p k = false) :
    (List.range m).find? p = some j := by
  obtain ⟨r, rfl⟩ : ∃ r, m = j + (r + 1) := ⟨m - j - 1, by omega⟩
  rw [List.range_add, List.find?_append]
  have h1 : (List.range j).find? p = none := by
    rw [List.find?_eq_none]
    intro x hx
    simp only [List.mem_range] at hx
    simp [hmin x hx]
  rw [h1, List.range_succ_eq_map, List.map_cons]
  simp only [Option.none_or, Nat.add_zero]
  exact List.find?_cons_of_pos _ hp

/-- The per-asset decode of a one-hot assignment is the selected level value
(pre-normalization). -/
theorem rawDecodedWeight_oneHot (d : Nat) (maxW : ℚ) (ks : Nat → Nat) (a : Nat)
    (hka : ks a ≤ d) :
    rawDecodedWeight (oneHot ks) maxW d a = weightLevel maxW d (ks a) := by
  unfold rawDecodedWeight firstSelectedLevel
  rw [find?_range_eq_some _ _ (ks a) (by omega) (by simp [oneHot]) ?_]
  intro k hk
  simp [oneHot, Nat.ne_of_lt hk]

/-- Getting inside a mapped range below the bound. -/
theorem getD_map_range (f : Nat → ℚ) (n i : Nat) (hi : i < n) :
    ((List.range n).map f).getD i 0 = f i := by
  rw [List.getD_eq_getElem?_getD, List.getElem?_map, List.getElem?_range hi]
  rfl

/-- Every status rank is at most the terminal rank 2. -/
theorem statusRank_le_two (s : String) : statusRank s ≤ 2 := by
  unfold statusRank
  split <;> try omega
  split <;> try omega
  split <;> try omega
  split <;> omega

/-- Key-sorted association lists with no duplicate keys are determined by
their multiset of entries. -/
theorem sortedKeys_eq : ∀ (l1 l2 : List (String × JValue)), l1.Perm l2 →
    List.Sorted keyLE l1 → List.Sorted keyLE l2 → (l1.map Prod.fst).Nodup →
    l1 = l2 := by
  intro l1
  induction l1 with
  | nil =>
    intro l2 hp _ _ _
    exact (hp.symm.eq_nil).symm
  | cons a t1 ih =>
    intro l2 hp hs1 hs2 hnd
    cases l2 with
    | nil => exact absurd hp.eq_nil (by simp)
    | cons b t2 =>
      have ha : a ∈ b :: t2 := hp.mem_iff.mp (List.mem_cons_self a t1)
      have hb : b ∈ a :: t1 := hp.symm.mem_iff.mp (List.mem_cons_self b t2)
      have hab : keyLE a b := by
        rcases List.mem_cons.mp hb with h | h
        · exact h ▸ le_refl _
        · exact (List.pairwise_cons.mp hs1).1 b h
      have hba : keyLE b a := by
        rcases List.mem_cons.mp ha with h | h
        · exact h ▸ le_refl _
        · exact (List.pairwise_cons.mp hs2).1 a h
      have hkey : a.1 = b.1 := le_antisymm hab hba
      have heq : a = b := by
        by_contra hne
        have hbt1 : b ∈ t1 := by
          rcases List.mem_cons.mp hb with h | h
          · exact absurd h.symm hne
          · exact h
        have : a.1 ∈ t1.map Prod.fst := by
          rw [hkey]
          exact List.mem_map_of_mem Prod.fst hbt1
        exact (List.nodup_cons.mp (by simpa using hnd)).1 this
      subst heq
      have hpt : t1.Perm t2 := hp.cons_inv
      have := ih t2 hpt hs1.of_cons hs2.of_cons
        (List.nodup_cons.mp (by simpa using hnd)).2
      rw [this]

/-- `sortKV` depends only on the multiset of entries when keys are unique. -/
theorem sortKV_perm_eq (l1 l2 : List (String × JValue)) (hp : l1.Perm l2)
    (hnd : (l1.map Prod.fst).Nodup) : sortKV l1 = sortKV l2 := by
  apply sortedKeys_eq
  · exact ((List.perm_insertionSort keyLE l1).trans hp).trans
      (List.perm_insertionSort keyLE l2).symm
  · exact List.sorted_insertionSort keyLE l1
  · exact List.sorted_insertionSort keyLE l2
  · exact ((List.perm_insertionSort keyLE l1).map Prod.fst).nodup_iff.mpr hnd

/-! ## Helper lemmas for the CVaR analysis -/

/-- Sorting preserves length. -/
theorem sortQ_length (l : List ℚ) : (sortQ l).length = l.length :=
  (List.perm_insertionSort _ l).length_eq

/-- Indexing into a sorted list is monotone. -/
theorem sorted_getD_le (s : List ℚ) (hs : List.Sorted (· ≤ ·) s) (i j : Nat)
    (hij : i ≤ j) (hj : j < s.length) : s.getD i 0 ≤ s.getD j 0 := by
  have hi : i < s.length := lt_of_le_of_lt hij hj
  rw [List.getD_eq_getElem s 0 hi, List.getD_eq_getElem s 0 hj]
  rcases eq_or_lt_of_le hij with rfl | hlt
  · exact le_refl _
  · have := hs.rel_get_of_lt (a := ⟨i, hi⟩) (b := ⟨j, hj⟩) hlt
    simpa [List.get_eq_getElem] using this

/-- Basic facts about the interpolation position `⌊h⌋` used by
`np.percentile`: the clamped index stays in range, the fractional part lies
in `[0, 1]` and the two bracketing samples are ordered. -/
theorem interp_facts (s : List ℚ) (hs : List.Sorted (· ≤ ·) s) (m : Nat)
    (hm : m = s.length) (hm1 : 1 ≤ m) (h : ℚ) (h0 : 0 ≤ h) (hup : h ≤ (m : ℚ) - 1) :
    (⌊h⌋).toNat ≤ m - 1
    ∧ ((⌊h⌋).toNat : ℚ) = (⌊h⌋ : ℚ)
    ∧ 0 ≤ h - ((⌊h⌋).toNat : ℚ)
    ∧ h - ((⌊h⌋).toNat : ℚ) ≤ 1
    ∧ s.getD (⌊h⌋).toNat 0 ≤ s.getD (min ((⌊h⌋).toNat + 1) (m - 1)) 0 := by
  have hcast : ((⌊h⌋).toNat : ℚ) = (⌊h⌋ : ℚ) := by
    exact_mod_cast congrArg (fun z : ℤ => (z : ℚ))
      (Int.toNat_of_nonneg (Int.floor_nonneg.mpr h0))
  have hloZ : ⌊h⌋ ≤ (m : ℤ) - 1 := by
    have hz : ((m : ℚ) - 1) = (((m : ℤ) - 1 : ℤ) : ℚ) := by push_cast; ring
    have h2 := Int.floor_le_floor (α := ℚ) hup
    rwa [hz, Int.floor_intCast] at h2
  have hlo : (⌊h⌋).toNat ≤ m - 1 := by
    rw [Int.toNat_le]
    omega
  refine ⟨hlo, hcast, ?_, ?_, ?_⟩
  · rw [hcast, sub_nonneg]
    exact Int.floor_le h
  · rw [hcast]
    have := Int.lt_floor_add_one h
    linarith
  · exact sorted_getD_le s hs _ _ (le_min (Nat.le_succ _) hlo) (by omega)

/-- The smallest sample bounds the linear interpolation from below. -/
theorem head_le_interp (s : List ℚ) (hs : List.Sorted (· ≤ ·) s) (m : Nat)
    (hm : m = s.length) (hm1 : 1 ≤ m) (h : ℚ) (h0 : 0 ≤ h) (hup : h ≤ (m : ℚ) - 1) :
    s.getD 0 0 ≤ s.getD (⌊h⌋).toNat 0 + (h - ((⌊h⌋).toNat : ℚ)) *
      (s.getD (min ((⌊h⌋).toNat + 1) (m - 1)) 0 - s.getD (⌊h⌋).toNat 0) := by
  obtain ⟨hlo, _, hf0, _, hab⟩ := interp_facts s hs m hm hm1 h h0 hup
  have h1 : s.getD 0 0 ≤ s.getD (⌊h⌋).toNat 0 :=
    sorted_getD_le s hs 0 _ (Nat.zero_le _) (by omega)
  nlinarith [mul_nonneg hf0 (sub_nonneg.mpr hab)]

/-- The linear interpolation over a sorted sample list is monotone in the
position. -/
theorem interp_le_interp (s : List ℚ) (hs : List.Sorted (· ≤ ·) s) (m : Nat)
    (hm : m = s.length) (hm1 : 1 ≤ m) (h1 h2 : ℚ) (h10 : 0 ≤ h1) (h12 : h1 ≤ h2)
    (h2up : h2 ≤ (m : ℚ) - 1) :
    s.getD (⌊h1⌋).toNat 0 + (h1 - ((⌊h1⌋).toNat : ℚ)) *
      (s.getD (min ((⌊h1⌋).toNat + 1) (m - 1)) 0 - s.getD (⌊h1⌋).toNat 0)
    ≤ s.getD (⌊h2⌋).toNat 0 + (h2 - ((⌊h2⌋).toNat : ℚ)) *
      (s.getD (min ((⌊h2⌋).toNat + 1) (m - 1)) 0 - s.getD (⌊h2⌋).toNat 0) := by
  have h20 : 0 ≤ h2 := le_trans h10 h12
  have h1up : h1 ≤ (m : ℚ) - 1 := le_trans h12 h2up
  obtain ⟨hlo1, hc1, hf01, hf11, hab1⟩ := interp_facts s hs m hm hm1 h1 h10 h1up
  obtain ⟨hlo2, hc2, hf02, hf12, hab2⟩ := interp_facts s hs m hm hm1 h2 h20 h2up
  have hlole : (⌊h1⌋).toNat ≤ (⌊h2⌋).toNat :=
    Int.toNat_le_toNat (Int.floor_le_floor h12)
  by_cases heq : (⌊h1⌋).toNat = (⌊h2⌋).toNat
  · rw [heq]
    have hd : h1 - ((⌊h2⌋).toNat : ℚ) ≤ h2 - ((⌊h2⌋).toNat : ℚ) := by linarith
    nlinarith [sub_nonneg.mpr hab2]
  · have hlolt : (⌊h1⌋).toNat < (⌊h2⌋).toNat := lt_of_le_of_ne hlole heq
    have hb1a2 : s.getD (min ((⌊h1⌋).toNat + 1) (m - 1)) 0 ≤ s.getD (⌊h2⌋).toNat 0 :=
      sorted_getD_le s hs _ _ (le_trans (min_le_left _ _) hlolt) (by omega)
    have hi1b1 : s.getD (⌊h1⌋).toNat 0 + (h1 - ((⌊h1⌋).toNat : ℚ)) *
        (s.getD (min ((⌊h1⌋).toNat + 1) (m - 1)) 0 - s.getD (⌊h1⌋).toNat 0)
        ≤ s.getD (min ((⌊h1⌋).toNat + 1) (m - 1)) 0 := by
      nlinarith [sub_nonneg.mpr hab1]
    have ha2i2 : s.getD (⌊h2⌋).toNat 0 ≤ s.getD (⌊h2⌋).toNat 0 + (h2 - ((⌊h2⌋).toNat : ℚ)) *
        (s.getD (min ((⌊h2⌋).toNat + 1) (m - 1)) 0 - s.getD (⌊h2⌋).toNat 0) := by
      nlinarith [mul_nonneg hf02 (sub_nonneg.mpr hab2)]
    linarith

/-- `percentile` on a nonempty list unfolded to its interpolation form. -/
theorem percentile_eq (l : List ℚ) (hne : l ≠ []) (q : ℚ) :
    percentile l q = (sortQ l).getD (⌊q / 100 * (((sortQ l).length : ℚ) - 1)⌋).toNat 0
      + (q / 100 * (((sortQ l).length : ℚ) - 1)
          - ((⌊q / 100 * (((sortQ l).length : ℚ) - 1)⌋).toNat : ℚ)) *
        ((sortQ l).getD (min ((⌊q / 100 * (((sortQ l).length : ℚ) - 1)⌋).toNat + 1)
            ((sortQ l).length - 1)) 0
          - (sortQ l).getD (⌊q / 100 * (((sortQ l).length : ℚ) - 1)⌋).toNat 0) := by
  rw [percentile, if_neg hne]

/-- `np.percentile` is monotone in the requested percentile. -/
theorem percentile_mono (l : List ℚ) (hne : l ≠ []) (q1 q2 : ℚ)
    (h0 : 0 ≤ q1) (h12 : q1 ≤ q2) (h100 : q2 ≤ 100) :
    percentile l q1 ≤ percentile l q2 := by
  have hm1 : 1 ≤ (sortQ l).length := by
    rw [sortQ_length]
    exact List.length_pos.mpr hne
  have hmq : (1 : ℚ) ≤ ((sortQ l).length : ℚ) := by exact_mod_cast hm1
  rw [percentile_eq l hne q1, percentile_eq l hne q2]
  exact interp_le_interp (sortQ l)
    (List.sorted_insertionSort _ l) (sortQ l).length rfl hm1 _ _
    (mul_nonneg (by positivity) (by linarith))
    (by nlinarith)
    (by nlinarith)

/-- The smallest portfolio return never exceeds any percentile. -/
theorem head_le_percentile (l : List ℚ) (hne : l ≠ []) (q : ℚ)
    (h0 : 0 ≤ q) (h100 : q ≤ 100) :
    (sortQ l).getD 0 0 ≤ percentile l q := by
  have hm1 : 1 ≤ (sortQ l).length := by
    rw [sortQ_length]
    exact List.length_pos.mpr hne
  have hmq : (1 : ℚ) ≤ ((sortQ l).length : ℚ) := by exact_mod_cast hm1
  rw [percentile_eq l hne q]
  exact head_le_interp (sortQ l) (List.sorted_insertionSort _ l) (sortQ l).length rfl hm1 _
    (mul_nonneg (by positivity) (by linarith))
    (by nlinarith)

/-- Filtering a sorted list below a threshold keeps an initial prefix. -/
theorem filter_sorted_eq_take (s : List ℚ) (hs : List.Sorted (· ≤ ·) s) (v : ℚ) :
    s.filter (fun x => decide (x ≤ v)) = s.take (s.countP (fun x => decide (x ≤ v))) := by
  induction s with
  | nil => rfl
  | cons a t ih =>
    by_cases ha : a ≤ v
    · have hd : (decide (a ≤ v)) = true := by simpa using ha
      simp [List.filter_cons_of_pos hd, List.countP_cons, hd, List.take_succ_cons,
        ih hs.of_cons]
    · rw [List.filter_cons_of_neg (by simpa using ha), List.countP_cons]
      have hall : ∀ x ∈ t, ¬ (decide (x ≤ v) = true) := by
        intro x hx
        have hax : a ≤ x := (List.pairwise_cons.mp hs).1 x hx
        simp only [decide_eq_true_eq]
        intro hxv
        exact ha (le_trans hax hxv)
      have h1 : t.filter (fun x => decide (x ≤ v)) = [] := List.filter_eq_nil_iff.mpr hall
      have h2 : t.countP (fun x => decide (x ≤ v)) = 0 := List.countP_eq_zero.mpr hall
      simp [h1, h2, ha]

/-- In a sorted list, the sum of the first `k` entries is at most `k` times
the next entry. -/
theorem sum_take_le_nsmul (s : List ℚ) (hs : List.Sorted (· ≤ ·) s) (k : Nat)
    (hk : k < s.length) : (s.take k).sum ≤ (k : ℚ) * s.getD k 0 := by
  have hb : ∀ x ∈ s.take k, x ≤ s.getD k 0 := by
    intro x hx
    obtain ⟨i, hi, hix⟩ := List.mem_iff_getElem.mp hx
    have hik : i < k := by
      have h3 := hi
      rw [List.length_take] at h3
      omega
    have hgt : (s.take k)[i] = s[i] := List.getElem_take s
    have his : i < s.length := by omega
    rw [← hix, hgt]
    have h4 := sorted_getD_le s hs i k (le_of_lt hik) hk
    rwa [List.getD_eq_getElem s 0 his] at h4
  have h5 := List.sum_le_card_nsmul (s.take k) (s.getD k 0) hb
  rwa [nsmul_eq_mul, List.length_take, min_eq_left (le_of_lt hk)] at h5

/-- Extending a sorted prefix by its next element cannot lower the mean. -/
theorem mean_take_succ_ge (s : List ℚ) (hs : List.Sorted (· ≤ ·) s) (k : Nat)
    (hk1 : 1 ≤ k) (hk : k < s.length) :
    listMean (s.take k) ≤ listMean (s.take (k + 1)) := by
  have htk : s.take (k + 1) = s.take k ++ [s[k]] := by
    rw [List.take_succ, List.getElem?_eq_getElem hk]
    rfl
  have hlen : (s.take k).length = k := by
    rw [List.length_take, min_eq_left (le_of_lt hk)]
  have hlen1 : (s.take (k + 1)).length = k + 1 := by
    rw [List.length_take, min_eq_left (by omega)]
  have hsum : (s.take (k + 1)).sum = (s.take k).sum + s[k] := by
    rw [htk, List.sum_append, List.sum_cons, List.sum_nil, add_zero]
  have hsle : (s.take k).sum ≤ (k : ℚ) * s.getD k 0 := sum_take_le_nsmul s hs k hk
  rw [listMean, listMean, hlen, hlen1, hsum]
  have hk0 : (0 : ℚ) < (k : ℚ) := by exact_mod_cast hk1
  rw [div_le_div_iff₀ hk0 (by push_cast; linarith)]
  have hgk : s.getD k 0 = s[k] := List.getD_eq_getElem s 0 hk
  push_cast
  nlinarith [hsle, hgk]

/-- On a sorted list the mean of an initial prefix is monotone in its
length (for nonempty prefixes). -/
theorem mean_take_mono (s : List ℚ) (hs : List.Sorted (· ≤ ·) s) (k1 k2 : Nat)
    (hk1 : 1 ≤ k1) (h12 : k1 ≤ k2) (hk2 : k2 ≤ s.length) :
    listMean (s.take k1) ≤ listMean (s.take k2) := by
  induction k2 with
  | zero => omega
  | succ k ih =>
    rcases Nat.lt_or_ge k1 (k + 1) with hlt | hge
    · have hk1k : k1 ≤ k := by omega
      have hks : k < s.length := by omega
      rcases Nat.eq_zero_or_pos k with rfl | hkpos
      · omega
      · exact le_trans (ih hk1k (by omega)) (mean_take_succ_ge s hs k hkpos hks)
    · have hq : k1 = k + 1 := by omega
      rw [hq]

/-- The mean of a nonempty sorted prefix is at most the overall mean. -/
theorem mean_take_le_mean (s : List ℚ) (hs : List.Sorted (· ≤ ·) s) (k : Nat)
    (hk1 : 1 ≤ k) (hk : k ≤ s.length) : listMean (s.take k) ≤ listMean s := by
  have h := mean_take_mono s hs k s.length hk1 hk (le_refl _)
  rwa [List.take_length] at h

/-- The mean is invariant under permutation. -/
theorem listMean_perm (l1 l2 : List ℚ) (h : l1.Perm l2) : listMean l1 = listMean l2 := by
  rw [listMean, listMean, h.sum_eq, h.length_eq]

/-- The mean of a lower tail grows with the threshold, provided the smaller
threshold already captures the minimum. -/
theorem tail_mean_mono (pr : List ℚ) (hne : pr ≠ []) (v1 v2 : ℚ)
    (hv12 : v1 ≤ v2) (hv1 : (sortQ pr).getD 0 0 ≤ v1) :
    listMean (pr.filter (fun x => decide (x ≤ v1)))
      ≤ listMean (pr.filter (fun x => decide (x ≤ v2))) := by
  have hperm : (sortQ pr).Perm pr := List.perm_insertionSort _ pr
  have hs : List.Sorted (· ≤ ·) (sortQ pr) := List.sorted_insertionSort _ pr
  have hlen : 1 ≤ (sortQ pr).length := by
    rw [sortQ_length]
    exact List.length_pos.mpr hne
  have e1 : listMean (pr.filter (fun x => decide (x ≤ v1)))
      = listMean ((sortQ pr).filter (fun x => decide (x ≤ v1))) :=
    (listMean_perm _ _ (hperm.filter _)).symm
  have e2 : listMean (pr.filter (fun x => decide (x ≤ v2)))
      = listMean ((sortQ pr).filter (fun x => decide (x ≤ v2))) :=
    (listMean_perm _ _ (hperm.filter _)).symm
  rw [e1, e2, filter_sorted_eq_take _ hs v1, filter_sorted_eq_take _ hs v2]
  have hk1pos : 0 < (sortQ pr).countP (fun x => decide (x ≤ v1)) := by
    rw [List.countP_pos_iff]
    refine ⟨(sortQ pr).getD 0 0, ?_, by simpa using hv1⟩
    rw [List.getD_eq_getElem _ 0 (by omega)]
    exact List.getElem_mem _
  have hk12 : (sortQ pr).countP (fun x => decide (x ≤ v1))
      ≤ (sortQ pr).countP (fun x => decide (x ≤ v2)) := by
    apply List.countP_mono_left
    intro x _ hx
    simp only [decide_eq_true_eq] at hx ⊢
    exact le_trans hx hv12
  exact mean_take_mono _ hs _ _ hk1pos hk12 (List.countP_le_length _)

/-- The mean of a lower tail that captures the minimum is at most the
overall mean. -/
theorem tail_mean_le_mean (pr : List ℚ) (hne : pr ≠ []) (v : ℚ)
    (hv : (sortQ pr).getD 0 0 ≤ v) :
    listMean (pr.filter (fun x => decide (x ≤ v))) ≤ listMean pr := by
  have hperm : (sortQ pr).Perm pr := List.perm_insertionSort _ pr
  have hs : List.Sorted (· ≤ ·) (sortQ pr) := List.sorted_insertionSort _ pr
  have hlen : 1 ≤ (sortQ pr).length := by
    rw [sortQ_length]
    exact List.length_pos.mpr hne
  have e1 : listMean (pr.filter (fun x => decide (x ≤ v)))
      = listMean ((sortQ pr).filter (fun x => decide (x ≤ v))) :=
    (listMean_perm _ _ (hperm.filter _)).symm
  have e2 : listMean pr = listMean (sortQ pr) := (listMean_perm _ _ hperm).symm
  rw [e1, e2, filter_sorted_eq_take _ hs v]
  have hkpos : 0 < (sortQ pr).countP (fun x => decide (x ≤ v)) := by
    rw [List.countP_pos_iff]
    refine ⟨(sortQ pr).getD 0 0, ?_, by simpa using hv⟩
    rw [List.getD_eq_getElem _ 0 (by omega)]
    exact List.getElem_mem _
  exact mean_take_le_mean _ hs _ hkpos (List.countP_le_length _)

/-! ## Claim C8 — CVaR ordering -/

/-- Claim C8: on every nonempty portfolio return series, CVaR at confidence
0.99 is at most CVaR at confidence 0.95, and CVaR at 0.95 is at most the
mean portfolio return (the left-tail mean never exceeds the overall mean, so
the claim's non-degeneracy proviso is not even needed). -/
theorem cvar_ordering (returns : List (List ℚ)) (w : List ℚ)
    (hne : portfolio_returns returns w ≠ []) :
    calculate_cvar returns w (99/100) ≤ calculate_cvar returns w (95/100)
    ∧ calculate_cvar returns w (95/100) ≤ listMean (portfolio_returns returns w) := by
  have hv12 : percentile (portfolio_returns returns w) ((1 - 99/100) * 100)
      ≤ percentile (portfolio_returns returns w) ((1 - 95/100) * 100) :=
    percentile_mono _ hne _ _ (by norm_num) (by norm_num) (by norm_num)
  have hv1 : (sortQ (portfolio_returns returns w)).getD 0 0
      ≤ percentile (portfolio_returns returns w) ((1 - 99/100) * 100) :=
    head_le_percentile _ hne _ (by norm_num) (by norm_num)
  have hv2 : (sortQ (portfolio_returns returns w)).getD 0 0
      ≤ percentile (portfolio_returns returns w) ((1 - 95/100) * 100) :=
    head_le_percentile _ hne _ (by norm_num) (by norm_num)
  constructor
  · rw [calculate_cvar, calculate_cvar]
    simp only [if_neg hne]
    exact tail_mean_mono _ hne _ _ hv12 hv1
  · rw [calculate_cvar]
    simp only [if_neg hne]
    exact tail_mean_le_mean _ hne _ hv2

/-- Witness for `cvar_ordering` on the concrete series 1..5. -/
theorem cvar_ordering_witness :
    calculate_cvar [[1], [2], [3], [4], [5]] [1] (99/100)
      ≤ calculate_cvar [[1], [2], [3], [4], [5]] [1] (95/100)
    ∧ calculate_cvar [[1], [2], [3], [4], [5]] [1] (95/100)
      ≤ listMean (portfolio_returns [[1], [2], [3], [4], [5]] [1]) :=
  cvar_ordering [[1], [2], [3], [4], [5]] [1] (by simp [portfolio_returns])

/-! ## Claim C7 — `calculate_returns` on degenerate inputs -/

/-- Claim C7, counterexample: with ticker B observed only once (fewer than 2
observations), `calculate_returns` does not raise anything: it returns an
empty returns matrix (the undefined rows are silently dropped), contradicting
the claimed `DataError`. -/
theorem calculate_returns_short_ticker_cex :
    calculate_returns [⟨"A", 1, 10⟩, ⟨"A", 2, 11⟩, ⟨"B", 1, 5⟩] = Except.ok [] := by
  simp [calculate_returns, pivotDates, pivotTickers, priceAt,
    List.insertionSort, List.orderedInsert, List.dedup]
  decide

/-- Claim C7, amended: whenever no (ticker, date) pair is duplicated,
`calculate_returns` returns a (possibly empty) returns matrix and never
raises; rows with a ticker lacking a price at either adjacent date are
silently dropped, and the only failure mode is the pivot's duplicate-entry
exception. -/
theorem calculate_returns_total_amended (obs : List PriceObs)
    (h : (obs.map (fun o => (o.ticker, o.date))).Nodup) :
    (calculate_returns obs).isOk = true := by
  simp [calculate_returns, if_pos h, Except.isOk, Except.toBool]

/-- Witness for `calculate_returns_total_amended`. -/
theorem calculate_returns_total_amended_witness :
    (calculate_returns [⟨"A", 1, 10⟩, ⟨"A", 2, 11⟩, ⟨"B", 1, 5⟩]).isOk = true :=
  calculate_returns_total_amended _ (by decide)

/-! ## Claim C6 — solver adapter boundaries -/

/-- Claim C6, counterexample: with Qiskit unavailable, `solve_qaoa` raises
`ImportError` across its public boundary instead of returning a result
dict. -/
theorem solve_qaoa_raises_cex :
    solve_qaoa_model false (Except.ok { status := "optimal" })
      = Except.error "Qiskit is not available. Please install it with: pip install qiskit qiskit-aer" := rfl

/-- Claim C6, amended: `solve_qubo` never raises — every internal failure
comes back as a `status=error` result carrying the message; `solve_qaoa`
behaves the same once Qiskit is available, but raises (and only raises) when
Qiskit is missing, before its guarded block is entered. -/
theorem solver_adapters_boundary_amended (inner : Except String AdapterResult)
    (msg : String) :
    (solve_qubo_model inner).isOk = true
    ∧ solve_qubo_model (Except.error msg)
        = Except.ok { status := "error", error := some msg, weights := none }
    ∧ (solve_qaoa_model true inner).isOk = true
    ∧ solve_qaoa_model true (Except.error msg)
        = Except.ok { status := "error", error := some msg, weights := none }
    ∧ (solve_qaoa_model false inner).isOk = false := by
  refine ⟨?_, rfl, ?_, rfl, rfl⟩ <;> cases inner <;> rfl

/-! ## Claim C4 — completion is not idempotent -/

/-- Claim C4: the code lacks a terminal-state guard — completing the same
experiment twice with a results payload inserts two `Result` rows for one
experiment id, violating the at-most-one-Result invariant. -/
theorem complete_twice_duplicates_result :
    resultCount
      (complete_experiment
        (complete_experiment
          (create_experiment {} 7 3 "classical" [] [] none (some 42))
          1 true none)
        1 true none)
      1 = 2 := rfl

/-! ## Claim C9 — lifecycle states can move backward -/

/-- Claim C9, counterexample: after an experiment reaches the terminal state
`completed`, a further `start_experiment` call moves it back to `running` —
states do not only move forward. -/
theorem start_regresses_terminal_cex :
    currentStatus
      (complete_experiment (create_experiment {} 7 3 "classical" [] [] none (some 42))
        1 true none) 1 = some "completed"
    ∧ currentStatus
        (start_experiment
          (complete_experiment (create_experiment {} 7 3 "classical" [] [] none (some 42))
            1 true none) 1) 1 = some "running" :=
  ⟨rfl, rfl⟩

/-- Claim C9, amended: the lifecycle advances `pending → running → terminal`
for the intended call order — create yields `pending`, start never lowers the
rank of a not-yet-terminal experiment, and complete never lowers the rank —
but forward-only motion is *not* enforced in general: start on a terminal
experiment regresses it to `running` (see the counterexample), so the
no-regression guarantee holds only when start is not applied to a terminal
state. -/
theorem lifecycle_forward_amended (db : DB) (id u ds : Nat) (st : String)
    (c p : List (String × JValue)) (nm : Option String) (sd : Option Int)
    (hr : Bool) (err : Option String)
    (hfresh : ∀ e ∈ db.experiments, e.id ≠ newId db)
    (hstart : rankO (currentStatus db id) ≤ 1) :
    currentStatus (create_experiment db u ds st c p nm sd) (newId db) = some "pending"
    ∧ rankO (currentStatus db id) ≤ rankO (currentStatus (start_experiment db id) id)
    ∧ rankO (currentStatus db id) ≤ rankO (currentStatus (complete_experiment db id hr err) id) := by
  refine ⟨?_, ?_, ?_⟩
  · have h1 : db.experiments.find? (fun e => e.id == newId db) = none := by
      rw [List.find?_eq_none]
      intro e he
      simpa using hfresh e he
    simp [currentStatus, create_experiment, List.find?_append, h1]
  · rw [currentStatus, currentStatus, start_experiment]
    simp only
    rw [find?_update db.experiments id
      (fun e => { e with status := "running" }) (fun e => rfl)]
    cases hfind : db.experiments.find? (fun e => e.id == id) with
    | none => simp [rankO]
    | some e =>
      have hid : e.id = id := by simpa using List.find?_some hfind
      rw [currentStatus, hfind] at hstart
      simp only [Option.map_some, Option.map_map, Function.comp]
      simpa [hid, rankO, statusRank] using hstart
  · rw [complete_experiment]
    by_cases hany : db.experiments.any (fun e => e.id == id)
    · rw [if_pos hany]
      rw [currentStatus, currentStatus]
      simp only
      rw [find?_update db.experiments id
        (fun e => { e with status := if err.isSome then "failed" else "completed",
                           error_message := err }) (fun e => rfl)]
      cases hfind : db.experiments.find? (fun e => e.id == id) with
      | none => simp [rankO]
      | some e =>
        have hid : e.id = id := by simpa using List.find?_some hfind
        have h2 : statusRank e.status ≤ 2 := statusRank_le_two e.status
        simp only [Option.map_some, Option.map_map, Function.comp]
        cases herr : err.isSome <;> simpa [hid, rankO, statusRank] using h2
    · rw [if_neg hany]

/-- Witness for `lifecycle_forward_amended` at an empty database. -/
theorem lifecycle_forward_amended_witness :
    currentStatus (create_experiment {} 4 3 "classical" [] [] none none) (newId {})
      = some "pending"
    ∧ rankO (currentStatus {} 1) ≤ rankO (currentStatus (start_experiment {} 1) 1)
    ∧ rankO (currentStatus {} 1) ≤ rankO (currentStatus (complete_experiment {} 1 true none) 1) :=
  lifecycle_forward_amended {} 1 4 3 "classical" [] [] none none true none
    (by intro e he; simp at he) (by decide)

/-! ## Claim C5 — reproducibility hash stability -/

/-- Claim C5: two create-experiment calls whose constraints and solver
parameters agree as key-value sets (supplied in any key order, keys unique)
and whose dataset, strategy and seed agree store the same reproducibility
hash, while a differing seed stores a different hash. -/
theorem results_hash_reproducibility (db1 db2 : DB) (u1 u2 ds : Nat) (st : String)
    (c1 c2 p1 p2 : List (String × JValue)) (nm1 nm2 : Option String)
    (sd sd1 sd2 : Option Int)
    (hc : c1.Perm c2) (hcnd : (c1.map Prod.fst).Nodup)
    (hp : p1.Perm p2) (hpnd : (p1.map Prod.fst).Nodup)
    (hsd : sd1 ≠ sd2) :
    storedHash (create_experiment db1 u1 ds st c1 p1 nm1 sd)
      = storedHash (create_experiment db2 u2 ds st c2 p2 nm2 sd)
    ∧ storedHash (create_experiment db1 u1 ds st c1 p1 nm1 sd1)
      ≠ storedHash (create_experiment db1 u1 ds st c1 p1 nm1 sd2) := by
  constructor
  · simp [storedHash, create_experiment, List.getLast?_concat, results_hash_model,
      sortKV_perm_eq c1 c2 hc hcnd, sortKV_perm_eq p1 p2 hp hpnd]
  · simp [storedHash, create_experiment, List.getLast?_concat, results_hash_model,
      HashCanon.mk.injEq, hsd]

/-- Witness for `results_hash_reproducibility`: permuted constraint keys,
different user, name and database, same seed; and seeds 1 vs 2. -/
theorem results_hash_reproducibility_witness :
    storedHash (create_experiment {} 1 3 "classical"
        [("a", JValue.boolean true), ("b", JValue.null)] [] none (some 5))
      = storedHash (create_experiment {} 2 3 "classical"
        [("b", JValue.null), ("a", JValue.boolean true)] [] (some "run") (some 5))
    ∧ storedHash (create_experiment {} 1 3 "classical"
        [("a", JValue.boolean true), ("b", JValue.null)] [] none (some 1))
      ≠ storedHash (create_experiment {} 1 3 "classical"
        [("a", JValue.boolean true), ("b", JValue.null)] [] none (some 2)) :=
  results_hash_reproducibility {} {} 1 2 3 "classical"
    [("a", JValue.boolean true), ("b", JValue.null)]
    [("b", JValue.null), ("a", JValue.boolean true)] [] []
    none (some "run") (some 5) (some 1) (some 2)
    (by decide) (by decide) (by decide) (by decide) (by decide)

/-! ## Claim C10 — the hash ignores user and name; the lookup ignores the user -/

/-- Claim C10: the stored reproducibility hash is a function of
`(dataset_id, solver_type, constraints, solver_params, random_seed)` alone —
create calls differing only in user and experiment name store equal hashes —
and `check_reproducibility` filters only on hash and `completed` status, so it
returns user 7's completed experiment to any caller. -/
theorem hash_ignores_user_and_name (db1 db2 : DB) (u1 u2 ds : Nat) (st : String)
    (c p : List (String × JValue)) (nm1 nm2 : Option String) (sd : Option Int) :
    storedHash (create_experiment db1 u1 ds st c p nm1 sd)
      = storedHash (create_experiment db2 u2 ds st c p nm2 sd)
    ∧ check_reproducibility repro_demo_db repro_demo_hash = some repro_demo_exp
    ∧ repro_demo_exp.user_id = 7 := by
  refine ⟨?_, rfl, rfl⟩
  simp [storedHash, create_experiment, List.getLast?_concat]

/-! ## Claim C1 — QUBO decode of one-hot assignments -/

/-- Claim C1, counterexample: decoding the one-hot assignment that selects
level 1 for the single asset (d = 2, maxWeight = 1, level value 1/2) yields
weight 1, not `weightLevels[1] = 1/2`: `_decode_to_weights` renormalizes, so
the exact round trip fails. -/
theorem decode_onehot_not_exact_cex :
    decode_to_weights (oneHot (fun _ => 1)) 1 2 1 = [1]
    ∧ weightLevel 1 2 1 = 1/2
    ∧ decode_to_weights (oneHot (fun _ => 1)) 1 2 1 ≠ [weightLevel 1 2 1] := by
  have h1 : decode_to_weights (oneHot (fun _ => 1)) 1 2 1 = [1] := by
    simp [decode_to_weights, oneHot, rawDecodedList, rawDecodedWeight, firstSelectedLevel,
      weightLevel, normalize_weights, List.range_succ]
  have h2 : weightLevel 1 2 1 = 1/2 := by norm_num [weightLevel]
  refine ⟨h1, h2, ?_⟩
  rw [h1, h2]
  intro h
  injection h with h3 _
  norm_num at h3

/-- Claim C1, amended: before normalization each asset of a one-hot
assignment decodes to exactly its selected level value, and in general the
per-asset decode takes the first level index whose variable equals 1 (lowest
index wins) and defaults to 0 when no level is selected; the full
`_decode_to_weights` output then rescales by the total — the asset's final
weight is `weightLevels[js i]` divided by the sum of all selected level
values when that sum is positive (so the exact round trip holds only when
the selected levels sum to 1), and 0 when the sum is not positive. -/
theorem decode_onehot_roundtrip_amended
    (n d i j : Nat) (maxW : ℚ) (js js₂ : Nat → Nat) (σ σ₂ : Nat → Nat → Nat)
    (hi : i < n)
    (hjs : ∀ k, js k ≤ d)
    (hS : 0 < (rawDecodedList (oneHot js) n maxW d).sum)
    (hS₂ : ¬ 0 < (rawDecodedList (oneHot js₂) n maxW d).sum)
    (hj : j ≤ d) (hsel : σ i j = 1) (hfirst : ∀ k, k < j → σ i k ≠ 1)
    (hnone : ∀ k, k ≤ d → σ₂ i k ≠ 1) :
    (rawDecodedList (oneHot js) n maxW d).getD i 0 = weightLevel maxW d (js i)
    ∧ (decode_to_weights (oneHot js) n d maxW).getD i 0
        = weightLevel maxW d (js i) / (rawDecodedList (oneHot js) n maxW d).sum
    ∧ (decode_to_weights (oneHot js₂) n d maxW).getD i 0 = 0
    ∧ rawDecodedWeight σ maxW d i = weightLevel maxW d j
    ∧ rawDecodedWeight σ₂ maxW d i = 0 := by
  refine ⟨?_, ?_, ?_, ?_, ?_⟩
  · rw [rawDecodedList, getD_map_range _ _ _ hi,
      rawDecodedWeight_oneHot d maxW js i (hjs i)]
  · simp only [decode_to_weights, normalize_weights]
    rw [if_pos hS]
    simp only [rawDecodedList, List.map_map]
    rw [getD_map_range _ n i hi]
    simp only [Function.comp_apply, rawDecodedWeight_oneHot d maxW js i (hjs i),
      rawDecodedList]
  · simp only [decode_to_weights, normalize_weights]
    rw [if_neg hS₂]
    simp only [rawDecodedList, List.map_map]
    exact getD_map_range _ n i hi
  · unfold rawDecodedWeight firstSelectedLevel
    rw [find?_range_eq_some _ _ j (by omega) (by simp [hsel]) ?_]
    intro k hk
    exact beq_eq_false_iff_ne.mpr (hfirst k hk)
  · unfold rawDecodedWeight firstSelectedLevel
    have h : (List.range (d + 1)).find? (fun k => σ₂ i k == 1) = none := by
      rw [List.find?_eq_none]
      intro x hx
      simp only [List.mem_range] at hx
      simpa using hnone x (by omega)
    rw [h]

/-- Witness for `decode_onehot_roundtrip_amended`: two assets, `d = 2`,
both selecting level 1 (values 1/2 each, total 1), the degenerate assignment
selecting level 0 everywhere (total 0), and explicit tie-break and
no-selection assignments at asset 0. -/
theorem decode_onehot_roundtrip_amended_witness :
    (rawDecodedList (oneHot (fun _ => 1)) 2 1 2).getD 0 0 = weightLevel 1 2 1
    ∧ (decode_to_weights (oneHot (fun _ => 1)) 2 2 1).getD 0 0
        = weightLevel 1 2 1 / (rawDecodedList (oneHot (fun _ => 1)) 2 1 2).sum
    ∧ (decode_to_weights (oneHot (fun _ => 0)) 2 2 1).getD 0 0 = 0
    ∧ rawDecodedWeight (fun _ k => if k = 1 then 1 else 0) 1 2 0 = weightLevel 1 2 1
    ∧ rawDecodedWeight (fun _ _ => 0) 1 2 0 = 0 := by
  refine decode_onehot_roundtrip_amended 2 2 0 1 1 (fun _ => 1) (fun _ => 0)
    (fun _ k => if k = 1 then 1 else 0) (fun _ _ => 0)
    (by decide) ?_ ?_ ?_ (by decide) rfl ?_ ?_
  · intro k
    simp
  · simp [rawDecodedList, rawDecodedWeight, firstSelectedLevel, weightLevel, oneHot,
      List.range_succ]
  · simp [rawDecodedList, rawDecodedWeight, firstSelectedLevel, weightLevel, oneHot,
      List.range_succ]
  · intro k hk
    simp [show k ≠ 1 by omega]
  · intro k _
    simp

/-! ## Claim C2 — the QUBO→Ising conversion does not preserve the objective -/

/-- Claim C2: for the single-variable QUBO with one diagonal coefficient 1,
the QUBO energies over binary assignments are 0 and 1, while the converted
Hamiltonian takes the values 3/4 and −1/4 over the two spins: no
correspondence between bits and spins makes the values agree.  The source
conversion (diagonal `c/2`, off-diagonal `c/4`, constant `Σc/4`) omits the
linear spin terms contributed by off-diagonal coefficients and mis-scales
the diagonal constant of the standard transformation. -/
theorem qubo_to_ising_mismatch_at_unit_qubo :
    quboEnergy [((0, 0), 1)] (fun _ => 0) = 0
    ∧ quboEnergy [((0, 0), 1)] (fun _ => 1) = 1
    ∧ isingValue [((0, 0), 1)] (fun _ => 1) = 3/4
    ∧ isingValue [((0, 0), 1)] (fun _ => -1) = -(1/4)
    ∧ (∀ zb xb : Bool,
        isingValue [((0, 0), 1)] (fun _ => if zb then 1 else -1)
          ≠ quboEnergy [((0, 0), 1)] (fun _ => if xb then 1 else 0)) := by
  refine ⟨by norm_num [quboEnergy], by norm_num [quboEnergy],
    by norm_num [isingValue], by norm_num [isingValue], ?_⟩
  intro zb xb
  cases zb <;> cases xb <;> norm_num [isingValue, quboEnergy]

/-! ## Claim C3 — the classical post-solve contract -/

/-- Claim C3, counterexample: with requested budget 1/2 and max weight 3/5, a
raw solution `[1/2]` (which meets both) is renormalized to `[1]`: the
returned weights sum to 1, not to the requested budget (off by 1/2 ≫ 1e-6),
and exceed maxWeightPerAsset + 1e-6. -/
theorem solve_post_budget_cex :
    (solve_post "optimal" [1/2] cexConstraints).status = "optimal"
    ∧ (solve_post "optimal" [1/2] cexConstraints).weights = some [1]
    ∧ ¬ |((solve_post "optimal" [1/2] cexConstraints).weights.getD []).sum
          - cexConstraints.budget| < tol
    ∧ (((solve_post "optimal" [1/2] cexConstraints).weights.getD []).all
          (fun x => decide (x ≤ cexConstraints.max_weight_per_asset + tol))) = false := by
  refine ⟨rfl, ?_, ?_, ?_⟩
  · rw [solve_post, if_neg (by simp)]
    norm_num [normalize_weights]
  · rw [solve_post, if_neg (by simp)]
    norm_num [normalize_weights, cexConstraints, tol]
    rw [show |(1:ℚ)/2| = 1/2 from abs_of_pos (by norm_num)]
    norm_num
  · rw [solve_post, if_neg (by simp)]
    norm_num [normalize_weights, cexConstraints, tol, List.all]

/-- Claim C3, amended: when the convex backend reports neither `infeasible`
nor `unbounded` and the raw solution has positive total, `solve` returns
`status=optimal` with the weights renormalized to sum exactly to **1** (not
to the requested budget), and the constraint-satisfaction map checks budget
equality, max-weight, cardinality and non-negativity at the renormalized
weights, each with tolerance 1e-6; the weights themselves are not guaranteed
to respect the budget or the max-weight bound. -/
theorem solve_post_contract_amended (b : String) (raw : List ℚ) (c : Constraints)
    (ma : Nat)
    (hs1 : b ≠ "infeasible") (hs2 : b ≠ "unbounded") (hpos : 0 < raw.sum)
    (hma : c.max_assets = some ma) (hma0 : ma ≠ 0)
    (hss : c.allow_short_selling = false) :
    (solve_post b raw c).status = "optimal"
    ∧ (solve_post b raw c).weights = some (normalize_weights raw)
    ∧ (normalize_weights raw).sum = 1
    ∧ (solve_post b raw c).constraint_satisfaction.lookup "budget"
        = some (decide (|(normalize_weights raw).sum - c.budget| < tol))
    ∧ (solve_post b raw c).constraint_satisfaction.lookup "max_weight"
        = some ((normalize_weights raw).all (fun x => decide (x ≤ c.max_weight_per_asset + tol)))
    ∧ (solve_post b raw c).constraint_satisfaction.lookup "cardinality"
        = some (decide (((normalize_weights raw).filter (fun x => decide (tol < x))).length ≤ ma))
    ∧ (solve_post b raw c).constraint_satisfaction.lookup "non_negative"
        = some ((normalize_weights raw).all (fun x => decide (-tol ≤ x))) := by
  have hcond : ¬ (b = "infeasible" ∨ b = "unbounded") := by tauto
  unfold solve_post
  rw [if_neg hcond]
  refine ⟨rfl, rfl, normalize_weights_sum raw hpos, ?_, ?_, ?_, ?_⟩
  all_goals simp [check_constraints, hma, hma0, hss, List.lookup]

/-- Witness for `solve_post_contract_amended` at a concrete optimal solve. -/
theorem solve_post_contract_amended_witness :
    (solve_post "optimal" [1/2, 1/4] { max_assets := some 1 }).status = "optimal"
    ∧ (solve_post "optimal" [1/2, 1/4] { max_assets := some 1 }).weights
        = some (normalize_weights [1/2, 1/4])
    ∧ (normalize_weights [1/2, 1/4]).sum = 1
    ∧ (solve_post "optimal" [1/2, 1/4] { max_assets := some 1 }).constraint_satisfaction.lookup "budget"
        = some (decide (|(normalize_weights [1/2, 1/4]).sum
            - (({ max_assets := some 1 } : Constraints)).budget| < tol))
    ∧ (solve_post "optimal" [1/2, 1/4] { max_assets := some 1 }).constraint_satisfaction.lookup "max_weight"
        = some ((normalize_weights [1/2, 1/4]).all
            (fun x => decide (x ≤ (({ max_assets := some 1 } : Constraints)).max_weight_per_asset + tol)))
    ∧ (solve_post "optimal" [1/2, 1/4] { max_assets := some 1 }).constraint_satisfaction.lookup "cardinality"
        = some (decide (((normalize_weights [1/2, 1/4]).filter
            (fun x => decide (tol < x))).length ≤ 1))
    ∧ (solve_post "optimal" [1/2, 1/4] { max_assets := some 1 }).constraint_satisfaction.lookup "non_negative"
        = some ((normalize_weights [1/2, 1/4]).all (fun x => decide (-tol ≤ x))) :=
  solve_post_contract_amended "optimal" [1/2, 1/4] { max_assets := some 1 } 1
    (by decide) (by decide) (by norm_num) rfl (by decide) rfl

end QPO
